import Mathlib

/-!
Verification of the jschon JSON Schema validator core against its
specification. The definitions below are a shallow embedding of
`src/jschon/vocabulary/validation.py` and `src/jschon/catalogue/__init__.py`;
parts of the engine that live outside those files (the `Scope` class, JSON
deep equality, JSON pointer parsing, the `contains` keyword) are modelled
from the specification and marked as such in their doc comments.
-/

/-! ## JSON value model

Modelled from the spec (§3): a tagged sum over null, bool, number, string,
array, object. Numbers are stored in arbitrary-precision decimal form; the
model stores the exact rational value together with a flag recording whether
the literal was written as a JSON integer (decimal values are a subset of ℚ,
and the flag lets distinct source representations of one numeric value, such
as `1` and `1.0`, be distinct model values). Arrays and objects are rolled
into the same mutual inductive so that deep equality is structurally
recursive and computable by kernel reduction.
-/

mutual

inductive JVal where
  | null : JVal
  | bool (b : Bool) : JVal
  | num (q : ℚ) (intRepr : Bool) : JVal
  | str (s : String) : JVal
  | arr (items : JArr) : JVal
  | obj (props : JObj) : JVal
deriving DecidableEq

inductive JArr where
  | nil : JArr
  | cons (hd : JVal) (tl : JArr) : JArr
deriving DecidableEq

inductive JObj where
  | nil : JObj
  | cons (k : String) (v : JVal) (tl : JObj) : JObj
deriving DecidableEq

end

/-- The JSON type name of a value, as exposed by `JSON.type` in the source:
numbers of either representation have type "number". -/
def JVal.typeName : JVal → String
  | .null => "null"
  | .bool _ => "boolean"
  | .num _ _ => "number"
  | .str _ => "string"
  | .arr _ => "array"
  | .obj _ => "object"

def JObj.find (k : String) : JObj → Option JVal
  | .nil => none
  | .cons k2 v tl => if k = k2 then some v else JObj.find k tl

def JObj.size : JObj → Nat
  | .nil => 0
  | .cons _ _ tl => JObj.size tl + 1

def JArr.get? : JArr → Nat → Option JVal
  | .nil, _ => none
  | .cons x _, 0 => some x
  | .cons _ tl, n + 1 => JArr.get? tl n

/-! ## Deep equality

Modelled from the spec (§4.5 table: "Deep equality"; scenario F: deep
numeric equality): Python `==` over parsed JSON values. Numbers compare by
exact numeric value, ignoring the integer/decimal representation; objects
compare as Python dicts (equal size and every key of the left side mapped
in the right side to an equal value); arrays compare pointwise.
-/

mutual

def jsonEq : JVal → JVal → Bool
  | .null, .null => true
  | .bool a, .bool b => a == b
  | .num a _, .num b _ => decide (a = b)
  | .str a, .str b => a == b
  | .arr a, .arr b => jarrEq a b
  | .obj a, .obj b => decide (a.size = b.size) && jobjSub a b
  | _, _ => false

def jarrEq : JArr → JArr → Bool
  | .nil, .nil => true
  | .cons x xs, .cons y ys => jsonEq x y && jarrEq xs ys
  | _, _ => false

def jobjSub : JObj → JObj → Bool
  | .nil, _ => true
  | .cons k v tl, b =>
    (match JObj.find k b with
     | some v2 => jsonEq v v2
     | none => false) && jobjSub tl b

end

/-! ## Scope

Modelled from the spec (§3 "Scope"): a node in the runtime evaluation tree
carrying an annotation map and an ordered error list. `fail` appends an
error; a scope is valid when its error list is empty (§3 invariants; the
instance-location component of an error is elided, only the message is
kept). The keyword evaluators below receive their own fresh scope and,
where the source reads `scope.sibling(...)`, an optional sibling scope.
-/

structure Scope where
  anns : List (String × Nat)
  errors : List String
deriving DecidableEq

def Scope.valid (s : Scope) : Bool := s.errors.isEmpty

def Scope.fail (s : Scope) (msg : String) : Scope :=
  { s with errors := s.errors ++ [msg] }

def Scope.annGet (s : Scope) (k : String) : Option Nat :=
  (s.anns.find? (fun p => p.1 == k)).map (·.2)

def emptyScope : Scope := ⟨[], []⟩

/-! ## Numeric helpers for the validation keywords -/

/-- Truncation toward zero, the behaviour of Python `int()` on a Decimal. -/
def dtrunc (q : ℚ) : ℤ := if 0 ≤ q then ⌊q⌋ else ⌈q⌉

/-- Number of decimal digits of an integer's absolute value. -/
def numDigits (n : ℤ) : Nat := (Nat.digits 10 n.natAbs).length

/-- Modelled from Python's `decimal` module as used by `multipleOf`:
the remainder `x % y` is exact when defined, and raises `InvalidOperation`
when the integer part of the exact quotient has more digits than the
context precision (default 28). The remainder follows the sign of the
dividend: `x - y * trunc(x / y)`. -/
def decRem (x y : ℚ) : Except Unit ℚ :=
  let q := dtrunc (x / y)
  if 28 < numDigits q then .error () else .ok (x - y * q)

/-! ## Validation keywords

Embedded from `src/jschon/vocabulary/validation.py`. Each `evaluate`
receives the keyword's JSON value, the relevant projection of the instance,
any sibling scopes the source reads, and the keyword's own scope, and
returns the updated scope(s).
-/

/-- `TypeKeyword.evaluate` (validation.py lines 46-56). `types` is the
tuplified keyword value; the instance is any JSON value. -/
def TypeKeyword.evaluate (types : List String) (inst : JVal) (scope : Scope) : Scope :=
  let valid :=
    if types.contains inst.typeName then
      true
    else if inst.typeName == "number" && types.contains "integer" then
      match inst with
      | .num q _ => decide (q = (dtrunc q : ℚ))
      | _ => false
    else
      false
  if valid then scope
  else scope.fail "The instance must be of the listed type"

/-- `MultipleOfKeyword.evaluate` (validation.py lines 82-87). `m` is the
keyword value, `x` the numeric instance value; `decimal.InvalidOperation`
from the remainder is caught and turned into a scope failure. -/
def MultipleOfKeyword.evaluate (m : ℚ) (x : ℚ) (scope : Scope) : Scope :=
  match decRem x m with
  | .ok r => if r ≠ 0 then scope.fail "The value must be a multiple of the keyword value" else scope
  | .error _ => scope.fail "Invalid operation on the remainder"

/-- The accumulator loop of `UniqueItemsKeyword.evaluate` (validation.py
lines 193-196): each item is appended to `acc` unless `acc` already holds
a deeply-equal element (Python `item not in uniquified`, which compares
each list element against the item). -/
def uniquifyGo (acc : List JVal) : List JVal → List JVal
  | [] => acc
  | x :: xs =>
    if acc.any (fun el => jsonEq el x) then uniquifyGo acc xs
    else uniquifyGo (acc ++ [x]) xs

def uniquify (items : List JVal) : List JVal := uniquifyGo [] items

/-- `UniqueItemsKeyword.evaluate` (validation.py lines 189-199). `u` is the
keyword value, `items` the elements of the array instance. -/
def UniqueItemsKeyword.evaluate (u : Bool) (items : List JVal) (scope : Scope) : Scope :=
  if !u then scope
  else if items.length > (uniquify items).length then
    scope.fail "The array's elements must all be unique"
  else scope

/-- `MaxContainsKeyword.evaluate` (validation.py lines 208-214). `cont` is
`scope.sibling("contains")`; the annotation map entry "contains" is the
match count. -/
def MaxContainsKeyword.evaluate (m : Nat) (cont : Option Scope) (scope : Scope) : Scope :=
  match cont with
  | some c =>
    match c.annGet "contains" with
    | some v =>
      if v > m then
        scope.fail "The array has too many elements matching the contains subschema"
      else scope
    | none => scope
  | none => scope

/-- `MinContainsKeyword.evaluate` (validation.py lines 223-239). `cont` is
`scope.sibling("contains")`, `mc` is `scope.sibling("maxContains")`; the
function returns the possibly error-cleared contains sibling together with
the keyword's own scope. -/
def MinContainsKeyword.evaluate (n : Nat) (cont : Option Scope) (mc : Option Scope)
    (scope : Scope) : Option Scope × Scope :=
  match cont with
  | none => (none, scope)
  | some c =>
    let containsCount := (c.annGet "contains").getD 0
    let valid := decide (containsCount ≥ n)
    let c' :=
      if valid && !c.valid then
        match mc with
        | none => { c with errors := [] }
        | some m => if m.valid then { c with errors := [] } else c
      else c
    let scope' :=
      if !valid then
        scope.fail "The array has too few elements matching the contains subschema"
      else scope
    (some c', scope')

/-- Modelled from the spec (§4.5: `contains` is the applicator whose
annotation `maxContains`/`minContains` read; the annotation is "the count
of matching elements", present only when the count is positive per the
implicit claim about `maxContains`, and the default policy requires at
least one match, failing otherwise). `subMatch` abstracts evaluation of the
`contains` subschema against one element. -/
def ContainsKeyword.evaluate (subMatch : JVal → Bool) (items : List JVal) (scope : Scope) : Scope :=
  let count := (items.filter subMatch).length
  if count > 0 then
    { scope with anns := scope.anns ++ [("contains", count)] }
  else
    scope.fail "The array does not contain a required element"

/-- Joint evaluation of a schema consisting of `contains` and `minContains`
(no `maxContains`) on an array instance, each keyword in a fresh scope in
dependency order, the overall verdict being the conjunction of the sibling
scopes' validity after `minContains` ran (spec §3 invariants and §4.5). -/
def containsMinContainsValid (subMatch : JVal → Bool) (n : Nat) (items : List JVal) : Bool :=
  let c := ContainsKeyword.evaluate subMatch items emptyScope
  let r := MinContainsKeyword.evaluate n (some c) none emptyScope
  (match r.1 with
   | some s => s.valid
   | none => true) && r.2.valid

/-! ## Catalogue

Embedded from `src/jschon/catalogue/__init__.py`. Python dicts are
modelled as association lists with dict semantics: assignment to an
existing key replaces the value in place, assignment to a new key appends,
`pop` removes the key. The file system and the schema compiler are
injected as functions (`fs`, `compile`), since file I/O and schema
compilation live outside the embedded files.
-/

def dlookup {α β : Type} [DecidableEq α] (k : α) : List (α × β) → Option β
  | [] => none
  | p :: rest => if k = p.1 then some p.2 else dlookup k rest

def dictInsert {α β : Type} [DecidableEq α] (k : α) (v : β) (d : List (α × β)) :
    List (α × β) :=
  if (dlookup k d).isSome then
    d.map (fun p => if p.1 = k then (k, v) else p)
  else d ++ [(k, v)]

def dictPop {α β : Type} [DecidableEq α] (k : α) (d : List (α × β)) : List (α × β) :=
  d.filter (fun p => decide (p.1 ≠ k))

inductive CatErr where
  | fileNotFound : CatErr
  | schemaNotFound : CatErr
  | notASchema : CatErr
  | sessionInUse : CatErr
deriving DecidableEq

/-! ### String helpers

Structurally recursive character-list implementations of the string
operations the source uses (prefix test, drop, split, find/replace,
digit parsing), so that concrete evaluations reduce in the kernel. -/

def strStartsWith (s pre : String) : Bool := pre.toList.isPrefixOf s.toList

def strDrop (s : String) (n : Nat) : String := String.mk (s.toList.drop n)

def splitOnChar (c : Char) : List Char → List (List Char)
  | [] => [[]]
  | x :: rest =>
    if x = c then [] :: splitOnChar c rest
    else
      match splitOnChar c rest with
      | [] => [[x]]
      | t :: ts => (x :: t) :: ts

/-- Left-to-right non-overlapping replacement of the two-character sequence
`a b` by the character `c`, the behaviour of Python str.replace on the
JSON pointer escape pairs. -/
def replacePair (a b c : Char) : List Char → List Char
  | [] => []
  | [x] => [x]
  | x :: y :: rest =>
    if x = a ∧ y = b then c :: replacePair a b c rest
    else x :: replacePair a b c (y :: rest)

def digitsToNat? (cs : List Char) : Option Nat :=
  if cs = [] then none
  else if cs.all (fun c => c.isDigit) then
    some (cs.foldl (fun n c => n * 10 + (c.toNat - 48)) 0)
  else none

/-! ### load_json (catalogue/__init__.py lines 90-131)

`pathlib` behaviour embedded: the final path component's suffix, and
`with_suffix`, which replaces an existing suffix and appends one when the
component has none. URI validation (scheme, normalization, no fragment)
happens before this logic in the source and is treated as an upstream
precondition here.
-/

/-- The final component of a path (the characters after the last slash). -/
def pathName (p : String) : String :=
  String.mk ((p.toList.reverse.takeWhile (fun c => c ≠ '/')).reverse)

/-- The leading part of a path, up to and including the last slash. -/
def pathParent (p : String) : String :=
  String.mk (p.toList.take (p.length - (pathName p).length))

/-- Length of the `pathlib` suffix of a name: the part from the last dot,
provided that dot is neither the first nor the last character. -/
def pySuffixLen (name : String) : Nat :=
  let cs := name.toList
  match cs.reverse.findIdx? (fun c => c == '.') with
  | none => 0
  | some k =>
    let i := cs.length - 1 - k
    if 0 < i ∧ i < cs.length - 1 then cs.length - i else 0

/-- `pathlib.Path.with_suffix`: drop the final component's suffix (if any)
and append `suf`. -/
def pyWithSuffix (p : String) (suf : String) : String :=
  let name := pathName p
  pathParent p ++ String.mk (name.toList.take (name.length - pySuffixLen name)) ++ suf

/-- `pathlib` path join `Path(base) / rem`: an absolute right operand
replaces the base, an empty one leaves it unchanged. -/
def joinPath (base rem : String) : String :=
  if rem = "" then base
  else if strStartsWith rem "/" then rem
  else base ++ "/" ++ rem

/-- Selection of the longest candidate base URI: the source builds the
candidate list in registration order and stable-sorts it by length
descending, then takes the head; equivalently, the first candidate of
maximal length. -/
def longerBase (acc : Option (String × String)) (c : String × String) :
    Option (String × String) :=
  match acc with
  | none => some c
  | some b => if c.1.length > b.1.length then some c else some b

def selectLongest (cands : List (String × String)) : Option (String × String) :=
  cands.foldl longerBase none

/-- `Catalogue.load_json` over registered directories `dirs` and a file
system `fs` mapping existing file paths to their parsed JSON contents. -/
def load_json (dirs : List (String × String)) (fs : String → Option JVal)
    (uri : String) : Except CatErr JVal :=
  let cands := dirs.filter (fun bd => strStartsWith uri bd.1)
  match selectLongest cands with
  | some bd =>
    let filepath := joinPath bd.2 (strDrop uri bd.1.length)
    match fs filepath with
    | some doc => .ok doc
    | none =>
      match fs (pyWithSuffix filepath ".json") with
      | some doc => .ok doc
      | none => .error .fileNotFound
  | none => .error .fileNotFound

/-! ### Schema cache and get_schema (catalogue/__init__.py lines 235-293) -/

structure UriM where
  base : String
  frag : Option String
deriving DecidableEq

/-- A cached node reachable by URI or pointer descent: either a compiled
(sub)schema with named children, a JSON array of nodes (an array-valued
keyword), or a plain JSON leaf. Only `schema` nodes pass the source's
`isinstance(schema, JSONSchema)` check. -/
inductive SNode where
  | schema (kids : List (String × SNode)) : SNode
  | arrNode (elems : List SNode) : SNode
  | leaf (v : JVal) : SNode

def SNode.isSchema : SNode → Bool
  | .schema _ => true
  | _ => false

abbrev SessionCache := List (UriM × SNode)
abbrev SchemaCache := List (String × SessionCache)

/-- The cache lookup order chosen at the top of `get_schema`
(lines 252-254). -/
def tryCaches (session : String) : List String :=
  if session = "__meta__" then ["__meta__"] else [session, "__meta__"]

/-- The exact-match loop of `get_schema` (lines 256-260 and 266-271):
first hit in cache-order wins, a missing session cache or a missing URI
key is skipped. -/
def exactStep (cache : SchemaCache) (order : List String) (uri : UriM) : Option SNode :=
  match order with
  | [] => none
  | c :: rest =>
    match (dlookup c cache).bind (fun row => dlookup uri row) with
    | some s => some s
    | none => exactStep cache rest uri

/-- Modelled from the spec (§3): JSON pointer token decoding honours the
tilde escapes, `~1` then `~0`. -/
def unescapeChars (t : List Char) : List Char :=
  replacePair '~' '0' '~' (replacePair '~' '1' '/' t)

/-- Modelled from the spec (§3, §4.2 step 5): a URI fragment is parsed as
a JSON pointer, which is either empty or a slash-led token sequence; a
plain-name (anchor) fragment is not a JSON pointer and parsing it fails.
Percent-decoding of fragments is elided; the theorems below use fragments
without percent-escapes. -/
def parseUriFragment (f : String) : Except Unit (List String) :=
  if f = "" then .ok []
  else if strStartsWith f "/" then
    .ok (((splitOnChar '/' f.toList).drop 1).map (fun t => String.mk (unescapeChars t)))
  else .error ()

def jvalStep (t : String) : JVal → Option JVal
  | .obj props => props.find t
  | .arr items =>
    match digitsToNat? t.toList with
    | some i => items.get? i
    | none => none
  | _ => none

/-- Modelled from the spec (§3): evaluating a pointer against a JSON value
returns the descendant or fails. -/
def jvalDescend : List String → JVal → Option JVal
  | [], v => some v
  | t :: ts, v => (jvalStep t v).bind (jvalDescend ts)

/-- Modelled from the spec (§3, §4.2): pointer evaluation starting at a
(sub)schema descends through keyword children, array-valued keywords and
plain JSON values. -/
def ptrEvaluate : List String → SNode → Except Unit SNode
  | [], nd => .ok nd
  | t :: ts, .schema kids =>
    match dlookup t kids with
    | some c => ptrEvaluate ts c
    | none => .error ()
  | t :: ts, .arrNode es =>
    match digitsToNat? t.toList with
    | some i =>
      match es.get? i with
      | some c => ptrEvaluate ts c
      | none => .error ()
    | none => .error ()
  | ts, .leaf v =>
    match jvalDescend ts v with
    | some v2 => .ok (.leaf v2)
    | none => .error ()

/-- `Catalogue.get_schema` (lines 235-293). The file system `fs` and the
schema compiler `compile` are injected; compilation's cache side effects
are not needed by the theorems below and are omitted. -/
def get_schema (cache : SchemaCache) (dirs : List (String × String))
    (fs : String → Option JVal) (compile : JVal → SNode)
    (uri : UriM) (session : String) : Except CatErr SNode :=
  let order := tryCaches session
  match exactStep cache order uri with
  | some s => .ok s
  | none =>
    let cached : Option SNode :=
      if uri.frag.isSome then exactStep cache order ⟨uri.base, none⟩ else none
    let schemaE : Except CatErr SNode :=
      match cached with
      | some s => .ok s
      | none =>
        match load_json dirs fs uri.base with
        | .ok doc => .ok (compile doc)
        | .error e => .error e
    match schemaE with
    | .error e => .error e
    | .ok schema =>
      let descended : Except CatErr SNode :=
        match uri.frag with
        | some f =>
          if f = "" then .ok schema
          else
            match parseUriFragment f with
            | .error _ => .error .schemaNotFound
            | .ok toks =>
              match ptrEvaluate toks schema with
              | .ok nd => .ok nd
              | .error _ => .error .schemaNotFound
        | none => .ok schema
      match descended with
      | .error e => .error e
      | .ok nd => if nd.isSchema then .ok nd else .error .notASchema

/-! ### Cache mutation and sessions (lines 205-233 and 295-306) -/

/-- `Catalogue.add_schema` (lines 205-219): `setdefault(session, {})`
followed by dict assignment. -/
def add_schema (cache : SchemaCache) (uri : UriM) (schema : SNode)
    (session : String) : SchemaCache :=
  let c1 := if (dlookup session cache).isSome then cache else cache ++ [(session, [])]
  match dlookup session c1 with
  | some row => dictInsert session (dictInsert uri schema row) c1
  | none => c1

/-- `Catalogue.del_schema` (lines 221-233): guarded `pop(uri, None)` on the
session's dict. -/
def del_schema (cache : SchemaCache) (uri : UriM) (session : String) : SchemaCache :=
  match dlookup session cache with
  | some row => dictInsert session (dictPop uri row) cache
  | none => cache

/-- Modelled from the spec (§4.2 step 5 with §4.4 step 5): the anchor
table of a compiled schema is registered in its session cache, each anchor
name becoming a plain-name fragment of the schema's base URI, so that
anchor-fragment URIs resolve at the exact-match step. -/
def registerAnchors (cache : SchemaCache) (base : String)
    (anchors : List (String × SNode)) (session : String) : SchemaCache :=
  anchors.foldl (fun c a => add_schema c ⟨base, some a.1⟩ a.2 session) cache

/-- Entry to `Catalogue.session` (lines 295-301): the tag defaults to a
fresh UUID, modelled by the injected `freshTag`; a tag that already keys a
session cache is refused. -/
def sessionEnter (cache : SchemaCache) (tag : Option String) (freshTag : String) :
    Except CatErr String :=
  let t := tag.getD freshTag
  if (dlookup t cache).isSome then .error .sessionInUse else .ok t

/-- Exit from `Catalogue.session` (lines 303-306): the `finally` block pops
the tag's entire session cache, on normal exit and on exception alike. -/
def sessionExit (cache : SchemaCache) (t : String) : SchemaCache :=
  dictPop t cache

/-- The cache invariant (spec §3): at most one schema per (session, uri)
pair, expressed as key uniqueness of the outer dict and of every session's
dict. -/
def cacheWF (c : SchemaCache) : Prop :=
  (c.map (·.1)).Nodup ∧ ∀ p ∈ c, (p.2.map (·.1)).Nodup

/-! ## Helper lemmas -/

theorem dtrunc_intCast (n : ℤ) : dtrunc (n : ℚ) = n := by
  unfold dtrunc
  split <;> simp

theorem dtrunc_eq_self_iff (q : ℚ) : q = (dtrunc q : ℚ) ↔ ∃ n : ℤ, q = (n : ℚ) := by
  constructor
  · exact fun h => ⟨dtrunc q, h⟩
  · rintro ⟨n, rfl⟩
    rw [dtrunc_intCast]

theorem numDigits_le_iff (n : ℤ) : numDigits n ≤ 28 ↔ n.natAbs < 10 ^ 28 := by
  unfold numDigits
  constructor
  · intro h
    calc n.natAbs < 10 ^ (Nat.digits 10 n.natAbs).length :=
          Nat.lt_base_pow_length_digits (by norm_num)
      _ ≤ 10 ^ 28 := Nat.pow_le_pow_right (by norm_num) h
  · intro h
    rcases Nat.eq_zero_or_pos n.natAbs with h0 | h0
    · simp [h0]
    · rw [Nat.digits_len 10 n.natAbs (by norm_num) (Nat.pos_iff_ne_zero.mp h0)]
      have := Nat.log_lt_of_lt_pow (Nat.pos_iff_ne_zero.mp h0) h
      omega

/-! ## Claim theorems -/

/-- C6: for a JSON number instance evaluated by the type keyword with a
type list containing "integer" but not "number", evaluation succeeds iff
the value equals its integer truncation, and a rejection records an error
on the scope. -/
theorem typeKeyword_integer_spec (types : List String) (q : ℚ) (r : Bool)
    (hint : types.contains "integer" = true)
    (hnum : types.contains "number" = false) :
    ((TypeKeyword.evaluate types (.num q r) emptyScope).valid = true ↔ ∃ n : ℤ, q = (n : ℚ))
    ∧ ((¬ ∃ n : ℤ, q = (n : ℚ)) →
        (TypeKeyword.evaluate types (.num q r) emptyScope).errors ≠ []) := by
  have h1 : ¬ ("number" ∈ types) := by simpa using hnum
  have h2 : "integer" ∈ types := by simpa using hint
  have hval : TypeKeyword.evaluate types (.num q r) emptyScope
      = if q = (dtrunc q : ℚ) then emptyScope
        else emptyScope.fail "The instance must be of the listed type" := by
    unfold TypeKeyword.evaluate
    simp [JVal.typeName, h1, h2]
  rw [hval]
  by_cases h : q = (dtrunc q : ℚ)
  · rw [if_pos h]
    exact ⟨⟨fun _ => (dtrunc_eq_self_iff q).mp h, fun _ => rfl⟩,
      fun hex => absurd ((dtrunc_eq_self_iff q).mp h) hex⟩
  · rw [if_neg h]
    refine ⟨⟨fun hv => ?_, fun hex => absurd ((dtrunc_eq_self_iff q).mpr hex) h⟩, fun _ => ?_⟩
    · simp [Scope.valid, Scope.fail, emptyScope] at hv
    · simp [Scope.fail, emptyScope]

/-- C6 witness: the theorem applied with type list ["integer"]: it accepts
the number 2.0 and rejects 2.5, recording an error. -/
theorem typeKeyword_integer_witness :
    (TypeKeyword.evaluate ["integer"] (.num 2 false) emptyScope).valid = true
    ∧ (TypeKeyword.evaluate ["integer"] (.num (5/2) false) emptyScope).errors ≠ [] := by
  constructor
  · exact (typeKeyword_integer_spec ["integer"] 2 false (by decide) (by decide)).1.mpr
      ⟨2, by norm_num⟩
  · refine (typeKeyword_integer_spec ["integer"] (5/2) false (by decide) (by decide)).2 ?_
    rintro ⟨n, hn⟩
    have h2 : (2 : ℚ) * n = 5 := by rw [← hn]; norm_num
    have h3 : (2 * n : ℤ) = 5 := by exact_mod_cast h2
    omega

/-- C7: multipleOf succeeds iff the numeric instance is exactly divisible
by the (positive) keyword value under exact decimal arithmetic; when the
decimal remainder overflows (quotient integer part beyond the 28-digit
context precision, Python InvalidOperation) a failure is recorded on the
scope and evaluation still returns normally. -/
theorem multipleOf_spec (m x : ℚ) (hm : 0 < m) :
    (numDigits (dtrunc (x / m)) ≤ 28 →
      ((MultipleOfKeyword.evaluate m x emptyScope).valid = true ↔ ∃ k : ℤ, x = (k : ℚ) * m))
    ∧ (28 < numDigits (dtrunc (x / m)) →
      MultipleOfKeyword.evaluate m x emptyScope
        = emptyScope.fail "Invalid operation on the remainder") := by
  constructor
  · intro hd
    have hok : MultipleOfKeyword.evaluate m x emptyScope
        = if x - m * (dtrunc (x / m) : ℚ) ≠ 0 then
            emptyScope.fail "The value must be a multiple of the keyword value"
          else emptyScope := by
      unfold MultipleOfKeyword.evaluate decRem
      rw [if_neg (by omega)]
    rw [hok]
    by_cases hr : x - m * (dtrunc (x / m) : ℚ) = 0
    · rw [if_neg (by simpa using hr)]
      refine ⟨fun _ => ⟨dtrunc (x / m), ?_⟩, fun _ => rfl⟩
      have hx : x = m * (dtrunc (x / m) : ℚ) := by linarith
      rw [mul_comm] at hx
      exact hx
    · rw [if_pos hr]
      constructor
      · intro hv
        simp [Scope.valid, Scope.fail, emptyScope] at hv
      · rintro ⟨k, rfl⟩
        apply absurd ?_ hr
        have hq : (k : ℚ) * m / m = (k : ℚ) := by
          field_simp
        rw [hq, dtrunc_intCast]
        ring
  · intro hd
    unfold MultipleOfKeyword.evaluate decRem
    rw [if_pos (by omega)]

/-- C7 witness: the theorem applied at multipleOf 0.1 on the instance 0.3,
which divides exactly, and at multipleOf 1 on the instance 10^30, whose
decimal remainder overflows yet still yields a recorded error rather than
an escaping exception. -/
theorem multipleOf_witness :
    (MultipleOfKeyword.evaluate (1/10) (3/10) emptyScope).valid = true
    ∧ MultipleOfKeyword.evaluate 1 ((10:ℚ)^30) emptyScope
        = emptyScope.fail "Invalid operation on the remainder" := by
  have h1 : ((3:ℚ)/10) / (1/10) = (3:ℤ) := by norm_num
  have h2 : ((10:ℚ)^30) / 1 = ((10^30 : ℤ) : ℚ) := by norm_num
  constructor
  · refine (multipleOf_spec (1/10) (3/10) (by norm_num)).1 ?_ |>.mpr ⟨3, by norm_num⟩
    rw [h1, dtrunc_intCast]
    rw [numDigits_le_iff]
    decide
  · refine (multipleOf_spec 1 ((10:ℚ)^30) (by norm_num)).2 ?_
    rw [h2, dtrunc_intCast]
    have : ¬ ((10^30 : ℤ).natAbs < 10 ^ 28) := by decide
    have hle := numDigits_le_iff (10^30 : ℤ)
    omega

/-- C10: maxContains records an error only when a contains sibling scope
exists and carries a "contains" annotation strictly exceeding the keyword
value; with no contains sibling, or no annotation on it, no error is
recorded and the scope stays valid. -/
theorem maxContains_spec (m : Nat) :
    (MaxContainsKeyword.evaluate m none emptyScope = emptyScope)
    ∧ (∀ c : Scope, c.annGet "contains" = none →
        MaxContainsKeyword.evaluate m (some c) emptyScope = emptyScope)
    ∧ (∀ c : Scope, ∀ v : Nat, c.annGet "contains" = some v →
        ((MaxContainsKeyword.evaluate m (some c) emptyScope).valid = false ↔ v > m)) := by
  refine ⟨rfl, ?_, ?_⟩
  · intro c hc
    simp only [MaxContainsKeyword.evaluate, hc]
  · intro c v hc
    simp only [MaxContainsKeyword.evaluate, hc]
    by_cases h : v > m
    · rw [if_pos h]
      simpa [Scope.valid, Scope.fail, emptyScope] using h
    · rw [if_neg h]
      simpa [Scope.valid, emptyScope] using h

/-- C10 witness: the theorem applied to a contains sibling annotated with
count 2: maxContains 1 fails, maxContains 2 does not; and with an
unannotated sibling maxContains 0 records nothing. -/
theorem maxContains_witness :
    ((MaxContainsKeyword.evaluate 1 (some ⟨[("contains", 2)], []⟩) emptyScope).valid = false)
    ∧ ((MaxContainsKeyword.evaluate 2 (some ⟨[("contains", 2)], []⟩) emptyScope).valid = true)
    ∧ (MaxContainsKeyword.evaluate 0 (some ⟨[], ["boom"]⟩) emptyScope = emptyScope) := by
  refine ⟨?_, ?_, ?_⟩
  · exact ((maxContains_spec 1).2.2 ⟨[("contains", 2)], []⟩ 2 (by decide)).mpr (by omega)
  · have h := (maxContains_spec 2).2.2 ⟨[("contains", 2)], []⟩ 2 (by decide)
    have hne : ¬ ((MaxContainsKeyword.evaluate 2 (some ⟨[("contains", 2)], []⟩) emptyScope).valid
        = false) := fun hf => absurd (h.mp hf) (by omega)
    exact Bool.ne_false_iff.mp hne
  · exact (maxContains_spec 0).2.1 ⟨[], ["boom"]⟩ (by decide)

/-- C1: minContains fails iff the contains match count (taken as 0 when the
contains scope carries no annotation) is strictly below the keyword value;
when minContains is satisfied while the contains sibling is invalid and the
maxContains sibling is absent or valid, the contains sibling's errors are
cleared; consequently a schema of contains with minContains 0 is valid on
every array whether or not the contains subschema matches any element. -/
theorem minContains_spec (n : Nat) (c : Scope) (mc : Option Scope) :
    ((MinContainsKeyword.evaluate n (some c) mc emptyScope).2.valid = false
       ↔ (c.annGet "contains").getD 0 < n)
    ∧ ((c.annGet "contains").getD 0 ≥ n → c.valid = false →
        (mc = none ∨ ∃ m, mc = some m ∧ m.valid = true) →
        (MinContainsKeyword.evaluate n (some c) mc emptyScope).1
          = some { c with errors := [] })
    ∧ (∀ (subMatch : JVal → Bool) (items : List JVal),
        containsMinContainsValid subMatch 0 items = true) := by
  refine ⟨?_, ?_, ?_⟩
  · by_cases hcnt : (c.annGet "contains").getD 0 ≥ n
    · have hd : decide ((c.annGet "contains").getD 0 ≥ n) = true := decide_eq_true hcnt
      simp only [MinContainsKeyword.evaluate, hd]
      exact iff_of_false (by simp [Scope.valid, emptyScope]) (by omega)
    · have hd : decide ((c.annGet "contains").getD 0 ≥ n) = false :=
        decide_eq_false hcnt
      simp only [MinContainsKeyword.evaluate, hd]
      exact iff_of_true (by simp [Scope.valid, Scope.fail, emptyScope]) (by omega)
  · intro hge hcv hmc
    have hd : decide ((c.annGet "contains").getD 0 ≥ n) = true := decide_eq_true hge
    simp only [MinContainsKeyword.evaluate, hd, hcv]
    rcases hmc with rfl | ⟨m, rfl, hm⟩
    · simp
    · simp [hm]
  · intro subMatch items
    unfold containsMinContainsValid ContainsKeyword.evaluate
    by_cases hc : (items.filter subMatch).length > 0
    · rw [if_pos hc]
      simp [MinContainsKeyword.evaluate, Scope.valid, Scope.annGet, emptyScope]
    · rw [if_neg hc]
      simp [MinContainsKeyword.evaluate, Scope.valid, Scope.annGet, Scope.fail, emptyScope]

/-- C1 witness: the theorem applied concretely: with minContains 0 an
unannotated invalid contains sibling has its errors cleared; minContains 2
over an unannotated sibling (count 0) fails; and the contains plus
minContains 0 schema accepts an array its subschema matches nowhere. -/
theorem minContains_witness :
    ((MinContainsKeyword.evaluate 0 (some ⟨[], ["e"]⟩) none emptyScope).1
        = some ⟨[], []⟩)
    ∧ ((MinContainsKeyword.evaluate 2 (some ⟨[], []⟩) none emptyScope).2.valid = false)
    ∧ containsMinContainsValid (fun _ => false) 0 [JVal.null] = true := by
  refine ⟨?_, ?_, ?_⟩
  · exact (minContains_spec 0 ⟨[], ["e"]⟩ none).2.1 (by decide) (by decide) (Or.inl rfl)
  · exact (minContains_spec 2 ⟨[], []⟩ none).1.mpr (by decide)
  · exact (minContains_spec 0 ⟨[], []⟩ none).2.2 (fun _ => false) [JVal.null]

/-! ## Dictionary lemmas -/

theorem dlookup_cons {α β : Type} [DecidableEq α] (k : α) (p : α × β) (d : List (α × β)) :
    dlookup k (p :: d) = if k = p.1 then some p.2 else dlookup k d := rfl

theorem dlookup_append_single_self {α β : Type} [DecidableEq α] (k : α) (v : β)
    (d : List (α × β)) (h : dlookup k d = none) :
    dlookup k (d ++ [(k, v)]) = some v := by
  induction d with
  | nil => simp [dlookup]
  | cons p rest ih =>
    rw [dlookup_cons] at h
    by_cases hk : k = p.1
    · rw [if_pos hk] at h
      exact absurd h (by simp)
    · rw [if_neg hk] at h
      simpa [dlookup_cons, hk] using ih h

theorem dlookup_append_single_ne {α β : Type} [DecidableEq α] (k k2 : α) (v : β)
    (d : List (α × β)) (h : k2 ≠ k) :
    dlookup k2 (d ++ [(k, v)]) = dlookup k2 d := by
  induction d with
  | nil => simp [dlookup, if_neg h]
  | cons p rest ih =>
    simp only [List.cons_append, dlookup_cons]
    by_cases h2 : k2 = p.1
    · rw [if_pos h2, if_pos h2]
    · rw [if_neg h2, if_neg h2]
      exact ih

theorem dlookup_map_replace_self {α β : Type} [DecidableEq α] (k : α) (v : β)
    (d : List (α × β)) (h : (dlookup k d).isSome) :
    dlookup k (d.map (fun p => if p.1 = k then (k, v) else p)) = some v := by
  induction d with
  | nil => simp [dlookup] at h
  | cons p rest ih =>
    by_cases hk : k = p.1
    · simp [dlookup_cons, hk]
    · rw [dlookup_cons, if_neg hk] at h
      have hpk : ¬ (p.1 = k) := fun he => hk he.symm
      simpa [dlookup_cons, hpk, hk] using ih h

theorem dlookup_map_replace_ne {α β : Type} [DecidableEq α] (k k2 : α) (v : β)
    (d : List (α × β)) (h : k2 ≠ k) :
    dlookup k2 (d.map (fun p => if p.1 = k then (k, v) else p)) = dlookup k2 d := by
  induction d with
  | nil => rfl
  | cons p rest ih =>
    by_cases hk : p.1 = k
    · have h2 : ¬ (k2 = p.1) := fun he => h (he.trans hk)
      simp only [List.map_cons, if_pos hk, dlookup_cons, if_neg h, if_neg h2]
      exact ih
    · simp only [List.map_cons, if_neg hk, dlookup_cons]
      by_cases h2 : k2 = p.1
      · rw [if_pos h2, if_pos h2]
      · rw [if_neg h2, if_neg h2]
        exact ih

theorem dlookup_dictInsert_self {α β : Type} [DecidableEq α] (k : α) (v : β)
    (d : List (α × β)) : dlookup k (dictInsert k v d) = some v := by
  unfold dictInsert
  by_cases hp : (dlookup k d).isSome
  · rw [if_pos hp]
    exact dlookup_map_replace_self k v d hp
  · rw [if_neg hp]
    exact dlookup_append_single_self k v d (Option.not_isSome_iff_eq_none.mp hp)

theorem dlookup_dictInsert_ne {α β : Type} [DecidableEq α] (k k2 : α) (v : β)
    (d : List (α × β)) (h : k2 ≠ k) :
    dlookup k2 (dictInsert k v d) = dlookup k2 d := by
  unfold dictInsert
  by_cases hp : (dlookup k d).isSome
  · rw [if_pos hp]
    exact dlookup_map_replace_ne k k2 v d h
  · rw [if_neg hp]
    exact dlookup_append_single_ne k k2 v d h

theorem dictInsert_keys_of_mem {α β : Type} [DecidableEq α] (k : α) (v : β)
    (d : List (α × β)) (h : (dlookup k d).isSome) :
    (dictInsert k v d).map (·.1) = d.map (·.1) := by
  unfold dictInsert
  rw [if_pos h, List.map_map]
  refine List.map_congr_left ?_
  intro p _
  by_cases hk : p.1 = k
  · simp [hk]
  · simp [hk]

theorem dictInsert_keys_of_none {α β : Type} [DecidableEq α] (k : α) (v : β)
    (d : List (α × β)) (h : dlookup k d = none) :
    (dictInsert k v d).map (·.1) = d.map (·.1) ++ [k] := by
  unfold dictInsert
  rw [if_neg (by simp [h])]
  simp

theorem dlookup_none_of_not_mem_keys {α β : Type} [DecidableEq α] (k : α)
    (d : List (α × β)) (h : k ∉ d.map (·.1)) : dlookup k d = none := by
  induction d with
  | nil => rfl
  | cons p rest ih =>
    simp only [List.map_cons, List.mem_cons] at h
    push_neg at h
    rw [dlookup_cons, if_neg h.1]
    exact ih h.2

theorem not_mem_keys_of_dlookup_none {α β : Type} [DecidableEq α] (k : α)
    (d : List (α × β)) (h : dlookup k d = none) : k ∉ d.map (·.1) := by
  induction d with
  | nil => simp
  | cons p rest ih =>
    rw [dlookup_cons] at h
    by_cases hk : k = p.1
    · rw [if_pos hk] at h
      exact absurd h (by simp)
    · rw [if_neg hk] at h
      simp only [List.map_cons, List.mem_cons]
      push_neg
      exact ⟨hk, ih h⟩

theorem dictInsert_keys_nodup {α β : Type} [DecidableEq α] (k : α) (v : β)
    (d : List (α × β)) (h : (d.map (·.1)).Nodup) :
    ((dictInsert k v d).map (·.1)).Nodup := by
  by_cases hp : (dlookup k d).isSome
  · rw [dictInsert_keys_of_mem k v d hp]
    exact h
  · have hn := Option.not_isSome_iff_eq_none.mp hp
    rw [dictInsert_keys_of_none k v d hn]
    have hk2 : k ∉ d.map (·.1) := not_mem_keys_of_dlookup_none k d hn
    rw [List.nodup_append]
    refine ⟨h, List.nodup_singleton k, ?_⟩
    intro a ha hb
    simp only [List.mem_singleton] at hb
    exact hk2 (hb ▸ ha)

theorem dictInsert_length_of_mem {α β : Type} [DecidableEq α] (k : α) (v : β)
    (d : List (α × β)) (h : (dlookup k d).isSome) :
    (dictInsert k v d).length = d.length := by
  unfold dictInsert
  rw [if_pos h, List.length_map]

theorem dlookup_dictPop_self {α β : Type} [DecidableEq α] (k : α) (d : List (α × β)) :
    dlookup k (dictPop k d) = none := by
  unfold dictPop
  induction d with
  | nil => rfl
  | cons p rest ih =>
    rw [List.filter_cons]
    by_cases hk : p.1 = k
    · rw [if_neg (by simp [hk])]
      exact ih
    · rw [if_pos (by simp [hk])]
      have h2 : ¬ (k = p.1) := fun he => hk he.symm
      rw [dlookup_cons, if_neg h2]
      exact ih

theorem dlookup_dictPop_ne {α β : Type} [DecidableEq α] (k k2 : α) (d : List (α × β))
    (h : k2 ≠ k) : dlookup k2 (dictPop k d) = dlookup k2 d := by
  unfold dictPop
  induction d with
  | nil => rfl
  | cons p rest ih =>
    rw [List.filter_cons]
    by_cases hk : p.1 = k
    · rw [if_neg (by simp [hk])]
      have h2 : ¬ (k2 = p.1) := fun he => h (he.trans hk)
      rw [dlookup_cons, if_neg h2]
      exact ih
    · rw [if_pos (by simp [hk])]
      rw [dlookup_cons, dlookup_cons]
      by_cases h2 : k2 = p.1
      · rw [if_pos h2, if_pos h2]
      · rw [if_neg h2, if_neg h2]
        exact ih

theorem dictPop_keys_nodup {α β : Type} [DecidableEq α] (k : α) (d : List (α × β))
    (h : (d.map (·.1)).Nodup) : ((dictPop k d).map (·.1)).Nodup := by
  unfold dictPop
  exact h.sublist (List.Sublist.map _ (List.filter_sublist d))

theorem dictPop_eq_self_of_none {α β : Type} [DecidableEq α] (k : α) (d : List (α × β))
    (h : dlookup k d = none) : dictPop k d = d := by
  unfold dictPop
  induction d with
  | nil => rfl
  | cons p rest ih =>
    rw [dlookup_cons] at h
    by_cases hk : k = p.1
    · rw [if_pos hk] at h
      exact absurd h (by simp)
    · rw [if_neg hk] at h
      have hpk : ¬ (p.1 = k) := fun he => hk he.symm
      rw [List.filter_cons, if_pos (by simp [hpk]), ih h]

theorem dictInsert_eq_self {α β : Type} [DecidableEq α] (k : α) (v : β)
    (d : List (α × β)) (hn : (d.map (·.1)).Nodup) (h : dlookup k d = some v) :
    dictInsert k v d = d := by
  unfold dictInsert
  rw [if_pos (by simp [h])]
  induction d with
  | nil => rfl
  | cons p rest ih =>
    simp only [List.map_cons, List.nodup_cons] at hn
    rw [dlookup_cons] at h
    by_cases hk : k = p.1
    · rw [if_pos hk] at h
      have hp : p = (k, v) := by
        obtain ⟨p1, p2⟩ := p
        simp at h hk
        simp [hk, h]
      have hrest : ∀ q ∈ rest, ¬ (q.1 = k) := by
        intro q hq he
        exact hn.1 (hp ▸ he ▸ (List.mem_map_of_mem (·.1) hq))
      simp only [List.map_cons, hp, if_pos rfl]
      congr 1
      calc rest.map (fun p => if p.1 = k then (k, v) else p)
          = rest.map id := List.map_congr_left (fun q hq => by rw [if_neg (hrest q hq)]; rfl)
        _ = rest := List.map_id rest
    · rw [if_neg hk] at h
      have hpk : ¬ (p.1 = k) := fun he => hk he.symm
      simp only [List.map_cons, if_neg hpk]
      congr 1
      exact ih hn.2 h

theorem dlookup_mem {α β : Type} [DecidableEq α] {k : α} {v : β} {d : List (α × β)}
    (h : dlookup k d = some v) : (k, v) ∈ d := by
  induction d with
  | nil => simp [dlookup] at h
  | cons p rest ih =>
    rw [dlookup_cons] at h
    by_cases hk : k = p.1
    · rw [if_pos hk] at h
      obtain ⟨p1, p2⟩ := p
      simp only [Option.some_inj] at h
      simp only [] at hk
      rw [List.mem_cons]
      exact Or.inl (by rw [hk, h])
    · rw [if_neg hk] at h
      exact List.mem_cons_of_mem p (ih h)

theorem mem_dictInsert {α β : Type} [DecidableEq α] {k : α} {v : β} {d : List (α × β)}
    {q : α × β} (h : q ∈ dictInsert k v d) : q = (k, v) ∨ q ∈ d := by
  unfold dictInsert at h
  by_cases hp : (dlookup k d).isSome
  · rw [if_pos hp] at h
    obtain ⟨p, hpd, hq⟩ := List.mem_map.mp h
    by_cases hk : p.1 = k
    · rw [if_pos hk] at hq
      exact Or.inl hq.symm
    · rw [if_neg hk] at hq
      exact Or.inr (hq ▸ hpd)
  · rw [if_neg hp] at h
    rcases List.mem_append.mp h with h2 | h2
    · exact Or.inr h2
    · simp only [List.mem_singleton] at h2
      exact Or.inl h2

theorem add_schema_of_some {cache : SchemaCache} {sess : String} {row : SessionCache}
    (uri : UriM) (s : SNode) (h : dlookup sess cache = some row) :
    add_schema cache uri s sess = dictInsert sess (dictInsert uri s row) cache := by
  unfold add_schema
  rw [if_pos (by simp [h])]
  simp only [h]

theorem add_schema_of_none {cache : SchemaCache} {sess : String}
    (uri : UriM) (s : SNode) (h : dlookup sess cache = none) :
    add_schema cache uri s sess
      = dictInsert sess (dictInsert uri s []) (cache ++ [(sess, [])]) := by
  unfold add_schema
  rw [if_neg (by simp [h])]
  simp only [dlookup_append_single_self sess [] cache h]

theorem del_schema_of_some {cache : SchemaCache} {sess : String} {row : SessionCache}
    (uri : UriM) (h : dlookup sess cache = some row) :
    del_schema cache uri sess = dictInsert sess (dictPop uri row) cache := by
  unfold del_schema
  rw [h]

theorem del_schema_of_none {cache : SchemaCache} {sess : String}
    (uri : UriM) (h : dlookup sess cache = none) :
    del_schema cache uri sess = cache := by
  unfold del_schema
  rw [h]

theorem append_nodup_keys {cache : SchemaCache} {sess : String}
    (hkeys : (cache.map (·.1)).Nodup) (h : dlookup sess cache = none) :
    (((cache ++ [(sess, ([] : SessionCache))]).map (·.1)).Nodup) := by
  rw [List.map_append, List.nodup_append]
  refine ⟨hkeys, by simp, ?_⟩
  intro a ha hb
  simp only [List.map_cons, List.map_nil, List.mem_singleton] at hb
  exact not_mem_keys_of_dlookup_none sess cache h (hb ▸ ha)

/-- C9: the catalogue cache holds at most one schema per (session, uri)
pair and both mutators preserve this; add_schema on an already-present key
replaces the entry without growing the session dict and leaves other
sessions alone; del_schema removes at most the single entry for its key,
leaves other uris and sessions alone, and is a total no-op (nothing is
raised) when the session or the uri is absent. -/
theorem cache_mutation_spec (cache : SchemaCache) (uri : UriM) (s : SNode)
    (sess : String) (hwf : cacheWF cache) :
    (cacheWF (add_schema cache uri s sess) ∧ cacheWF (del_schema cache uri sess))
    ∧ ((dlookup sess (add_schema cache uri s sess)).bind (fun row => dlookup uri row)
        = some s)
    ∧ (∀ row, dlookup sess cache = some row → (dlookup uri row).isSome →
        ∃ row2, dlookup sess (add_schema cache uri s sess) = some row2
          ∧ row2.length = row.length)
    ∧ ((dlookup sess (del_schema cache uri sess)).bind (fun row => dlookup uri row) = none)
    ∧ (∀ uri2, uri2 ≠ uri → ∀ row, dlookup sess cache = some row →
        ∃ row2, dlookup sess (del_schema cache uri sess) = some row2
          ∧ dlookup uri2 row2 = dlookup uri2 row)
    ∧ (∀ sess2, sess2 ≠ sess →
        dlookup sess2 (del_schema cache uri sess) = dlookup sess2 cache
        ∧ dlookup sess2 (add_schema cache uri s sess) = dlookup sess2 cache)
    ∧ (dlookup sess cache = none → del_schema cache uri sess = cache)
    ∧ (∀ row, dlookup sess cache = some row → dlookup uri row = none →
        del_schema cache uri sess = cache) := by
  obtain ⟨hkeys, hrows⟩ := hwf
  refine ⟨⟨?_, ?_⟩, ?_, ?_, ?_, ?_, ?_, ?_, ?_⟩
  · -- WF preserved by add_schema
    rcases hc : dlookup sess cache with _ | row
    · rw [add_schema_of_none uri s hc]
      refine ⟨dictInsert_keys_nodup _ _ _ (append_nodup_keys hkeys hc), ?_⟩
      intro p hp
      rcases mem_dictInsert hp with rfl | hp2
      · exact dictInsert_keys_nodup uri s [] List.nodup_nil
      · rcases List.mem_append.mp hp2 with hp3 | hp3
        · exact hrows p hp3
        · simp only [List.mem_singleton] at hp3
          rw [hp3]
          exact List.nodup_nil
    · rw [add_schema_of_some uri s hc]
      refine ⟨dictInsert_keys_nodup _ _ _ hkeys, ?_⟩
      intro p hp
      rcases mem_dictInsert hp with rfl | hp2
      · exact dictInsert_keys_nodup _ _ _ (hrows (sess, row) (dlookup_mem hc))
      · exact hrows p hp2
  · -- WF preserved by del_schema
    rcases hc : dlookup sess cache with _ | row
    · rw [del_schema_of_none uri hc]
      exact ⟨hkeys, hrows⟩
    · rw [del_schema_of_some uri hc]
      refine ⟨dictInsert_keys_nodup _ _ _ hkeys, ?_⟩
      intro p hp
      rcases mem_dictInsert hp with rfl | hp2
      · exact dictPop_keys_nodup _ _ (hrows (sess, row) (dlookup_mem hc))
      · exact hrows p hp2
  · -- the added entry is retrievable
    rcases hc : dlookup sess cache with _ | row
    · rw [add_schema_of_none uri s hc, dlookup_dictInsert_self]
      simp only [Option.some_bind]
      exact dlookup_dictInsert_self uri s []
    · rw [add_schema_of_some uri s hc, dlookup_dictInsert_self]
      simp only [Option.some_bind]
      exact dlookup_dictInsert_self uri s row
  · -- replacement, not addition
    intro row hc hu
    rw [add_schema_of_some uri s hc]
    exact ⟨dictInsert uri s row, dlookup_dictInsert_self _ _ _,
      dictInsert_length_of_mem uri s row hu⟩
  · -- the deleted entry is gone
    rcases hc : dlookup sess cache with _ | row
    · rw [del_schema_of_none uri hc, hc]
      rfl
    · rw [del_schema_of_some uri hc, dlookup_dictInsert_self]
      simp only [Option.some_bind]
      exact dlookup_dictPop_self uri row
  · -- other uris in the session survive del_schema
    intro uri2 hne row hc
    rw [del_schema_of_some uri hc]
    exact ⟨dictPop uri row, dlookup_dictInsert_self _ _ _,
      dlookup_dictPop_ne uri uri2 row hne⟩
  · -- other sessions untouched
    intro sess2 hne
    constructor
    · rcases hc : dlookup sess cache with _ | row
      · rw [del_schema_of_none uri hc]
      · rw [del_schema_of_some uri hc]
        exact dlookup_dictInsert_ne sess sess2 _ cache hne
    · rcases hc : dlookup sess cache with _ | row
      · rw [add_schema_of_none uri s hc]
        rw [dlookup_dictInsert_ne sess sess2 _ _ hne]
        exact dlookup_append_single_ne sess sess2 [] cache hne
      · rw [add_schema_of_some uri s hc]
        exact dlookup_dictInsert_ne sess sess2 _ cache hne
  · -- no-op when the session is absent
    intro hc
    exact del_schema_of_none uri hc
  · -- no-op when the uri is absent in the session's dict
    intro row hc hu
    rw [del_schema_of_some uri hc, dictPop_eq_self_of_none uri row hu]
    exact dictInsert_eq_self sess row cache hkeys hc

/-- C9 witness: the theorem applied to a one-session, one-entry well-formed
cache: re-adding the same key keeps the session dict at one entry holding
the new value, and deleting a missing uri returns the cache unchanged. -/
theorem cache_mutation_witness :
    (∃ row2, dlookup "default"
        (add_schema [("default", [(⟨"u", none⟩, SNode.leaf .null)])]
          ⟨"u", none⟩ (SNode.leaf (.bool true)) "default") = some row2
        ∧ row2.length = 1)
    ∧ del_schema [("default", [(⟨"u", none⟩, SNode.leaf .null)])] ⟨"v", none⟩ "default"
        = [("default", [(⟨"u", none⟩, SNode.leaf .null)])] := by
  constructor
  · have h := (cache_mutation_spec [("default", [(⟨"u", none⟩, SNode.leaf .null)])]
      ⟨"u", none⟩ (SNode.leaf (.bool true)) "default"
      (by constructor <;> simp)).2.2.1 [(⟨"u", none⟩, SNode.leaf .null)] rfl (by rfl)
    exact h
  · exact (cache_mutation_spec [("default", [(⟨"u", none⟩, SNode.leaf .null)])]
      ⟨"v", none⟩ (SNode.leaf .null) "default"
      (by constructor <;> simp)).2.2.2.2.2.2.2 [(⟨"u", none⟩, SNode.leaf .null)] rfl rfl

/-- C5: entering a catalogue session with no tag yields the fresh UUID tag
when that tag is not live; entering with a live tag fails with
CatalogueError; and session exit, which the finally block performs on
normal and exceptional termination alike, drops every schema cached under
the tag while leaving all other sessions untouched. -/
theorem session_spec (cache : SchemaCache) (tag freshTag : String) :
    (dlookup freshTag cache = none → sessionEnter cache none freshTag = .ok freshTag)
    ∧ ((dlookup tag cache).isSome →
        sessionEnter cache (some tag) freshTag = .error .sessionInUse)
    ∧ (dlookup tag (sessionExit cache tag) = none)
    ∧ (∀ s2, s2 ≠ tag → dlookup s2 (sessionExit cache tag) = dlookup s2 cache) := by
  refine ⟨?_, ?_, ?_, ?_⟩
  · intro h
    unfold sessionEnter
    rw [if_neg (by simp [Option.getD, h])]
    rfl
  · intro h
    unfold sessionEnter
    rw [if_pos (by simpa [Option.getD] using h)]
  · exact dlookup_dictPop_self tag cache
  · exact fun s2 h => dlookup_dictPop_ne tag s2 cache h

/-- C5 witness: the theorem applied to a cache holding only the live
session "s1": a fresh tag is granted, re-acquiring "s1" is refused, and
exit drops the whole "s1" cache while keeping "other". -/
theorem session_witness :
    (sessionEnter [("s1", [])] none "f8a1" = .ok "f8a1")
    ∧ (sessionEnter [("s1", [])] (some "s1") "f8a1" = .error .sessionInUse)
    ∧ (dlookup "s1" (sessionExit [("s1", []), ("other", [])] "s1") = none)
    ∧ (dlookup "other" (sessionExit [("s1", []), ("other", [])] "s1")
        = dlookup "other" [("s1", []), ("other", [])]) := by
  refine ⟨?_, ?_, ?_, ?_⟩
  · exact (session_spec [("s1", [])] "s1" "f8a1").1 rfl
  · exact (session_spec [("s1", [])] "s1" "f8a1").2.1 rfl
  · exact (session_spec [("s1", []), ("other", [])] "s1" "f8a1").2.2.1
  · exact (session_spec [("s1", []), ("other", [])] "s1" "f8a1").2.2.2 "other" (by decide)

theorem exactStep_nil (cache : SchemaCache) (uri : UriM) :
    exactStep cache [] uri = none := rfl

theorem exactStep_cons (cache : SchemaCache) (c : String) (rest : List String) (uri : UriM) :
    exactStep cache (c :: rest) uri
      = match (dlookup c cache).bind (fun row => dlookup uri row) with
        | some s => some s
        | none => exactStep cache rest uri := rfl

/-- C2: at the exact-match step get_schema consults the session caches in
the stated order and nothing else: only "__meta__" when the session is
"__meta__", otherwise the given session's cache and then "__meta__",
returning the first cached schema found for the exact URI; the outcome of
the exact-match step never depends on any other session's cache. -/
theorem getSchema_cache_order (cache : SchemaCache) (dirs : List (String × String))
    (fs : String → Option JVal) (compile : JVal → SNode) (uri : UriM)
    (session : String) (x : SNode) :
    ((dlookup session cache).bind (fun row => dlookup uri row) = some x →
      get_schema cache dirs fs compile uri session = .ok x)
    ∧ (session ≠ "__meta__" →
        (dlookup session cache).bind (fun row => dlookup uri row) = none →
        (dlookup "__meta__" cache).bind (fun row => dlookup uri row) = some x →
        get_schema cache dirs fs compile uri session = .ok x)
    ∧ (∀ cache2 : SchemaCache,
        dlookup session cache2 = dlookup session cache →
        dlookup "__meta__" cache2 = dlookup "__meta__" cache →
        exactStep cache2 (tryCaches session) uri
          = exactStep cache (tryCaches session) uri) := by
  refine ⟨?_, ?_, ?_⟩
  · intro h
    have hstep : exactStep cache (tryCaches session) uri = some x := by
      unfold tryCaches
      by_cases hs : session = "__meta__"
      · rw [if_pos hs, exactStep_cons, ← hs, h]
      · rw [if_neg hs, exactStep_cons, h]
    simp only [get_schema, hstep]
  · intro hs h1 h2
    have hstep : exactStep cache (tryCaches session) uri = some x := by
      unfold tryCaches
      rw [if_neg hs, exactStep_cons, h1, exactStep_cons, h2]
    simp only [get_schema, hstep]
  · intro cache2 h1 h2
    unfold tryCaches
    by_cases hs : session = "__meta__"
    · rw [if_pos hs]
      simp only [exactStep_cons, exactStep_nil, h2]
    · rw [if_neg hs]
      simp only [exactStep_cons, exactStep_nil, h1, h2]

/-- C2 witness: the theorem applied to a two-session cache: a session hit
is returned directly; on a session miss the "__meta__" entry is returned;
and dropping an unrelated third session leaves the exact-match outcome
unchanged. -/
theorem getSchema_cache_order_witness :
    (get_schema [("s", [(⟨"u", none⟩, SNode.schema [])]),
        ("__meta__", [(⟨"m", none⟩, SNode.schema [("k", SNode.leaf .null)])])]
        [] (fun _ => none) (fun _ => SNode.leaf .null) ⟨"u", none⟩ "s"
      = .ok (SNode.schema []))
    ∧ (get_schema [("s", [(⟨"u", none⟩, SNode.schema [])]),
        ("__meta__", [(⟨"m", none⟩, SNode.schema [("k", SNode.leaf .null)])])]
        [] (fun _ => none) (fun _ => SNode.leaf .null) ⟨"m", none⟩ "s"
      = .ok (SNode.schema [("k", SNode.leaf .null)]))
    ∧ (exactStep [("s", [(⟨"u", none⟩, SNode.schema [])]), ("other", [])]
        (tryCaches "s") ⟨"u", none⟩
      = exactStep [("s", [(⟨"u", none⟩, SNode.schema [])])] (tryCaches "s") ⟨"u", none⟩) := by
  refine ⟨?_, ?_, ?_⟩
  · exact (getSchema_cache_order [("s", [(⟨"u", none⟩, SNode.schema [])]),
      ("__meta__", [(⟨"m", none⟩, SNode.schema [("k", SNode.leaf .null)])])]
      [] (fun _ => none) (fun _ => SNode.leaf .null) ⟨"u", none⟩ "s"
      (SNode.schema [])).1 rfl
  · exact (getSchema_cache_order [("s", [(⟨"u", none⟩, SNode.schema [])]),
      ("__meta__", [(⟨"m", none⟩, SNode.schema [("k", SNode.leaf .null)])])]
      [] (fun _ => none) (fun _ => SNode.leaf .null) ⟨"m", none⟩ "s"
      (SNode.schema [("k", SNode.leaf .null)])).2.1 (by decide) rfl rfl
  · exact (getSchema_cache_order [("s", [(⟨"u", none⟩, SNode.schema [])])]
      [] (fun _ => none) (fun _ => SNode.leaf .null) ⟨"u", none⟩ "s"
      (SNode.schema [])).2.2 [("s", [(⟨"u", none⟩, SNode.schema [])]), ("other", [])]
      rfl rfl

theorem longerBase_isSome (acc : Option (String × String)) (c : String × String) :
    (longerBase acc c).isSome := by
  rcases acc with _ | b
  · rfl
  · simp only [longerBase]
    by_cases h : c.1.length > b.1.length
    · rw [if_pos h]; rfl
    · rw [if_neg h]; rfl

theorem foldl_longerBase_mem (l : List (String × String)) :
    ∀ (acc : Option (String × String)) (c : String × String),
      l.foldl longerBase acc = some c → acc = some c ∨ c ∈ l := by
  induction l with
  | nil => exact fun acc c h => Or.inl h
  | cons p rest ih =>
    intro acc c h
    rw [List.foldl_cons] at h
    rcases ih (longerBase acc p) c h with h2 | h2
    · rcases acc with _ | b
      · simp only [longerBase, Option.some_inj] at h2
        exact Or.inr (h2 ▸ List.mem_cons_self p rest)
      · simp only [longerBase] at h2
        by_cases hl : p.1.length > b.1.length
        · rw [if_pos hl, Option.some_inj] at h2
          exact Or.inr (h2 ▸ List.mem_cons_self p rest)
        · rw [if_neg hl, Option.some_inj] at h2
          exact Or.inl (by rw [h2])
    · exact Or.inr (List.mem_cons_of_mem p h2)

theorem foldl_longerBase_max (l : List (String × String)) :
    ∀ (acc : Option (String × String)) (c : String × String),
      l.foldl longerBase acc = some c →
      (∀ d ∈ l, d.1.length ≤ c.1.length)
        ∧ (∀ b, acc = some b → b.1.length ≤ c.1.length) := by
  induction l with
  | nil =>
    intro acc c h
    simp only [List.foldl_nil] at h
    exact ⟨by simp, fun b hb => by rw [hb, Option.some_inj] at h; rw [h]⟩
  | cons p rest ih =>
    intro acc c h
    rw [List.foldl_cons] at h
    obtain ⟨hrest, hacc⟩ := ih (longerBase acc p) c h
    have hp : p.1.length ≤ c.1.length := by
      rcases hb : longerBase acc p with _ | b
      · exact absurd hb (Option.isSome_iff_ne_none.mp (longerBase_isSome acc p))
      · have hble := hacc b hb
        rcases acc with _ | b0
        · simp only [longerBase, Option.some_inj] at hb
          exact hb ▸ hble
        · simp only [longerBase] at hb
          by_cases hl : p.1.length > b0.1.length
          · rw [if_pos hl, Option.some_inj] at hb
            exact hb ▸ hble
          · rw [if_neg hl, Option.some_inj] at hb
            rw [← hb] at hble
            omega
    refine ⟨?_, ?_⟩
    · intro d hd
      rcases List.mem_cons.mp hd with rfl | hd2
      · exact hp
      · exact hrest d hd2
    · intro b0 hb0
      rcases hb : longerBase acc p with _ | b
      · exact absurd hb (Option.isSome_iff_ne_none.mp (longerBase_isSome acc p))
      · have hble := hacc b hb
        rw [hb0] at hb
        simp only [longerBase] at hb
        by_cases hl : p.1.length > b0.1.length
        · rw [if_pos hl, Option.some_inj] at hb
          omega
        · rw [if_neg hl, Option.some_inj] at hb
          exact hb ▸ hble

/-- C3 (amended form): for a URI with at least one registered base-URI
prefix, load_json selects the longest matching registered base (a child
mount shadows its parent, with no fallback), resolves the remainder against
that base's directory, and probes exactly two file names in order: the
literal remainder, then the remainder with its pathlib suffix replaced by
".json" (which appends ".json" only when the final path component has no
suffix); if neither file exists the result is the CatalogueError. -/
theorem loadJson_spec (dirs : List (String × String)) (fs : String → Option JVal)
    (uri : String) (b dir : String)
    (hsel : selectLongest (dirs.filter (fun bd => strStartsWith uri bd.1)) = some (b, dir)) :
    ((b, dir) ∈ dirs ∧ strStartsWith uri b = true
      ∧ (∀ bd ∈ dirs, strStartsWith uri bd.1 = true → bd.1.length ≤ b.length))
    ∧ (load_json dirs fs uri =
        match fs (joinPath dir (strDrop uri b.length)) with
        | some d => .ok d
        | none =>
          match fs (pyWithSuffix (joinPath dir (strDrop uri b.length)) ".json") with
          | some d => .ok d
          | none => .error .fileNotFound) := by
  constructor
  · have hmem := foldl_longerBase_mem _ none (b, dir) hsel
    have hmax := (foldl_longerBase_max _ none (b, dir) hsel).1
    rcases hmem with h | h
    · exact absurd h (by simp)
    · obtain ⟨hin, hpre⟩ := List.mem_filter.mp h
      refine ⟨hin, by simpa using hpre, ?_⟩
      intro bd hbd hbdpre
      exact hmax bd (List.mem_filter.mpr ⟨hbd, by simpa using hbdpre⟩)
  · simp only [load_json, hsel]

/-- C3 counterexample: the claim says the second probe appends ".json" to
the remainder. With base http://ex/ mounted at /d and the file
/d/a.txt.json (the probe the claim predicts) present, loading
http://ex/a.txt still fails with CatalogueError, because the code's second
probe is with_suffix, which replaces the existing ".txt" suffix and probes
/d/a.json instead of /d/a.txt.json. -/
theorem loadJson_suffix_counterexample :
    (load_json [("http://ex/", "/d")]
        (fun p => if p = "/d/a.txt.json" then some .null else none)
        "http://ex/a.txt" = .error .fileNotFound)
    ∧ pyWithSuffix (joinPath "/d" "a.txt") ".json" ≠ joinPath "/d" "a.txt" ++ ".json"
    ∧ (fun p => if p = "/d/a.txt.json" then some (JVal.null) else none)
        (joinPath "/d" "a.txt" ++ ".json") = some JVal.null := by
  refine ⟨by rfl, by decide, by rfl⟩

/-- C3 witness: the amended theorem applied to nested mounts: for
http://ex/sub/x the child mount http://ex/sub/ (the longest matching base)
is selected over its parent, the literal probe /c/x misses, and the
suffix probe /c/x.json is read. -/
theorem loadJson_witness :
    load_json [("http://ex/", "/p"), ("http://ex/sub/", "/c")]
      (fun p => if p = "/c/x.json" then some .null else none) "http://ex/sub/x"
      = .ok .null
    ∧ ("http://ex/sub/", "/c") ∈ [("http://ex/", "/p"), ("http://ex/sub/", "/c")]
    ∧ (∀ bd ∈ [("http://ex/", "/p"), ("http://ex/sub/", "/c")],
        strStartsWith "http://ex/sub/x" bd.1 = true →
        bd.1.length ≤ "http://ex/sub/".length) := by
  have h := loadJson_spec [("http://ex/", "/p"), ("http://ex/sub/", "/c")]
    (fun p => if p = "/c/x.json" then some .null else none)
    "http://ex/sub/x" "http://ex/sub/" "/c" (by rfl)
  refine ⟨?_, h.1.1, h.1.2.2⟩
  rw [h.2]
  rfl

theorem exactStep_tryCaches_self (cache : SchemaCache) (sess : String) (uri : UriM)
    (x : SNode) (h : (dlookup sess cache).bind (fun row => dlookup uri row) = some x) :
    exactStep cache (tryCaches sess) uri = some x := by
  unfold tryCaches
  by_cases hs : sess = "__meta__"
  · rw [if_pos hs, exactStep_cons, ← hs, h]
  · rw [if_neg hs, exactStep_cons, h]

theorem add_schema_lookup_self (cache : SchemaCache) (uri : UriM) (s : SNode)
    (sess : String) :
    (dlookup sess (add_schema cache uri s sess)).bind (fun row => dlookup uri row)
      = some s := by
  rcases hc : dlookup sess cache with _ | row
  · rw [add_schema_of_none uri s hc, dlookup_dictInsert_self]
    simp only [Option.some_bind]
    exact dlookup_dictInsert_self uri s []
  · rw [add_schema_of_some uri s hc, dlookup_dictInsert_self]
    simp only [Option.some_bind]
    exact dlookup_dictInsert_self uri s row

theorem add_schema_lookup_other (cache : SchemaCache) (uri uri2 : UriM) (s : SNode)
    (sess : String) (h : uri2 ≠ uri) :
    (dlookup sess (add_schema cache uri s sess)).bind (fun row => dlookup uri2 row)
      = (dlookup sess cache).bind (fun row => dlookup uri2 row) := by
  rcases hc : dlookup sess cache with _ | row
  · rw [add_schema_of_none uri s hc, dlookup_dictInsert_self]
    simp only [Option.some_bind, Option.none_bind]
    rw [dlookup_dictInsert_ne uri uri2 s [] h]
    rfl
  · rw [add_schema_of_some uri s hc, dlookup_dictInsert_self]
    simp only [Option.some_bind]
    exact dlookup_dictInsert_ne uri uri2 s row h

theorem foldl_addSchema_preserve (base : String) (sess : String) (name : String) :
    ∀ (rest : List (String × SNode)) (cache : SchemaCache),
      (∀ q ∈ rest, q.1 ≠ name) →
      (dlookup sess (rest.foldl
          (fun c a => add_schema c ⟨base, some a.1⟩ a.2 sess) cache)).bind
        (fun row => dlookup ⟨base, some name⟩ row)
      = (dlookup sess cache).bind (fun row => dlookup ⟨base, some name⟩ row) := by
  intro rest
  induction rest with
  | nil => exact fun cache _ => rfl
  | cons a rest2 ih =>
    intro cache hq
    rw [List.foldl_cons]
    rw [ih (add_schema cache ⟨base, some a.1⟩ a.2 sess)
      (fun q hq2 => hq q (List.mem_cons_of_mem a hq2))]
    exact add_schema_lookup_other cache ⟨base, some a.1⟩ ⟨base, some name⟩ a.2 sess
      (fun he => hq a (List.mem_cons_self a rest2) (congrArg UriM.frag he |> Option.some.inj).symm)

theorem registerAnchors_lookup (base : String) (sess : String) :
    ∀ (anchors : List (String × SNode)) (cache : SchemaCache) (name : String) (T : SNode),
      (name, T) ∈ anchors → (anchors.map (·.1)).Nodup →
      (dlookup sess (registerAnchors cache base anchors sess)).bind
        (fun row => dlookup ⟨base, some name⟩ row) = some T := by
  intro anchors
  induction anchors with
  | nil =>
    intro cache name T h _
    exact absurd h (List.not_mem_nil (name, T))
  | cons a rest ih =>
    intro cache name T hmem hnodup
    unfold registerAnchors
    rw [List.foldl_cons]
    rcases List.mem_cons.mp hmem with heq | hmem2
    · have ha1 : name = a.1 := by rw [← heq]
      have ha2 : T = a.2 := by rw [← heq]
      have hrest : ∀ q ∈ rest, q.1 ≠ name := by
        intro q hq he
        have h1 := (List.nodup_cons.mp hnodup).1
        have h2 : q.1 ∈ rest.map (·.1) := List.mem_map_of_mem (·.1) hq
        rw [he, ha1] at h2
        exact h1 h2
      rw [foldl_addSchema_preserve base sess name rest _ hrest]
      rw [ha1, ha2]
      exact add_schema_lookup_self cache ⟨base, some a.1⟩ a.2 sess
    · exact ih (add_schema cache ⟨base, some a.1⟩ a.2 sess) name T hmem2
        (List.nodup_cons.mp hnodup).2

/-- C4: for a URI with a non-empty fragment that is not cached exactly,
once the base resolves to a schema (from the session caches or loaded from
disk and compiled), the fragment is parsed as a JSON Pointer and evaluated
to descend into the schema: a successful descent returns the target if it
is a schema and fails with NotASchema otherwise, while a failed parse or
descent fails with CatalogueError; and a plain-name anchor fragment
resolves through the registered anchor-table entries at the exact-match
step. -/
theorem getSchema_fragment_spec (cache : SchemaCache) (dirs : List (String × String))
    (fs : String → Option JVal) (compile : JVal → SNode) (b f : String)
    (session : String) (toks : List String)
    (hmiss : exactStep cache (tryCaches session) ⟨b, some f⟩ = none)
    (hf : ¬ (f = "")) :
    (∀ S, exactStep cache (tryCaches session) ⟨b, none⟩ = some S →
      parseUriFragment f = .ok toks →
      ∀ nd, ptrEvaluate toks S = .ok nd →
        get_schema cache dirs fs compile ⟨b, some f⟩ session
          = if nd.isSchema then .ok nd else .error .notASchema)
    ∧ (∀ S, exactStep cache (tryCaches session) ⟨b, none⟩ = some S →
        parseUriFragment f = .ok toks → ptrEvaluate toks S = .error () →
        get_schema cache dirs fs compile ⟨b, some f⟩ session = .error .schemaNotFound)
    ∧ (∀ S, exactStep cache (tryCaches session) ⟨b, none⟩ = some S →
        parseUriFragment f = .error () →
        get_schema cache dirs fs compile ⟨b, some f⟩ session = .error .schemaNotFound)
    ∧ (∀ doc, exactStep cache (tryCaches session) ⟨b, none⟩ = none →
        load_json dirs fs b = .ok doc →
        parseUriFragment f = .ok toks →
        ∀ nd, ptrEvaluate toks (compile doc) = .ok nd →
          get_schema cache dirs fs compile ⟨b, some f⟩ session
            = if nd.isSchema then .ok nd else .error .notASchema)
    ∧ (∀ (anchors : List (String × SNode)) (name : String) (T : SNode)
          (cache2 : SchemaCache),
        (name, T) ∈ anchors → (anchors.map (·.1)).Nodup →
        get_schema (registerAnchors cache2 b anchors session) dirs fs compile
          ⟨b, some name⟩ session = .ok T) := by
  refine ⟨?_, ?_, ?_, ?_, ?_⟩
  · intro S hbase hparse nd hnd
    simp only [get_schema, hmiss, hbase, Option.isSome_some, if_true, hf, hparse, hnd,
      if_false, ite_false]
  · intro S hbase hparse hnd
    simp only [get_schema, hmiss, hbase, Option.isSome_some, if_true, hf, hparse, hnd,
      if_false, ite_false]
  · intro S hbase hparse
    simp only [get_schema, hmiss, hbase, Option.isSome_some, if_true, hf, hparse,
      if_false, ite_false]
  · intro doc hbase hload hparse nd hnd
    simp only [get_schema, hmiss, hbase, hload, Option.isSome_some, if_true, hf, hparse,
      hnd, if_false, ite_false]
  · intro anchors name T cache2 hmem hnodup
    have hstep := exactStep_tryCaches_self (registerAnchors cache2 b anchors session)
      session ⟨b, some name⟩ T
      (registerAnchors_lookup b session anchors cache2 name T hmem hnodup)
    simp only [get_schema, hstep]

/-- C4 witness: the theorem applied to a cached schema with an "items"
subschema and a "maxItems" JSON leaf: /items descends to the subschema,
/maxItems hits a non-schema and raises NotASchema, /nope fails the
descent, the plain-name fragment "anc" is not a pointer and fails, the
same /items descent also works on a schema compiled from a disk load, and
a registered anchor "anc" resolves at the exact-match step. -/
theorem getSchema_fragment_witness :
    (get_schema [("default", [(⟨"http://ex/s", none⟩,
        SNode.schema [("items", SNode.schema []), ("maxItems", SNode.leaf (.num 3 true))])])]
        [] (fun _ => none) (fun _ => SNode.leaf .null)
        ⟨"http://ex/s", some "/items"⟩ "default" = .ok (SNode.schema []))
    ∧ (get_schema [("default", [(⟨"http://ex/s", none⟩,
        SNode.schema [("items", SNode.schema []), ("maxItems", SNode.leaf (.num 3 true))])])]
        [] (fun _ => none) (fun _ => SNode.leaf .null)
        ⟨"http://ex/s", some "/maxItems"⟩ "default" = .error .notASchema)
    ∧ (get_schema [("default", [(⟨"http://ex/s", none⟩,
        SNode.schema [("items", SNode.schema []), ("maxItems", SNode.leaf (.num 3 true))])])]
        [] (fun _ => none) (fun _ => SNode.leaf .null)
        ⟨"http://ex/s", some "/nope"⟩ "default" = .error .schemaNotFound)
    ∧ (get_schema [("default", [(⟨"http://ex/s", none⟩,
        SNode.schema [("items", SNode.schema []), ("maxItems", SNode.leaf (.num 3 true))])])]
        [] (fun _ => none) (fun _ => SNode.leaf .null)
        ⟨"http://ex/s", some "anc"⟩ "default" = .error .schemaNotFound)
    ∧ (get_schema [] [("http://ex/", "/d")]
        (fun p => if p = "/d/s" then some .null else none)
        (fun _ => SNode.schema [("items", SNode.schema [])])
        ⟨"http://ex/s", some "/items"⟩ "default" = .ok (SNode.schema []))
    ∧ (get_schema (registerAnchors [] "http://ex/s" [("anc", SNode.schema [])] "default")
        [] (fun _ => none) (fun _ => SNode.leaf .null)
        ⟨"http://ex/s", some "anc"⟩ "default" = .ok (SNode.schema [])) := by
  refine ⟨?_, ?_, ?_, ?_, ?_, ?_⟩
  · exact (getSchema_fragment_spec [("default", [(⟨"http://ex/s", none⟩,
        SNode.schema [("items", SNode.schema []), ("maxItems", SNode.leaf (.num 3 true))])])]
      [] (fun _ => none) (fun _ => SNode.leaf .null)
      "http://ex/s" "/items" "default" ["items"] rfl (by decide)).1
      (SNode.schema [("items", SNode.schema []), ("maxItems", SNode.leaf (.num 3 true))])
      rfl rfl (SNode.schema []) rfl
  · exact (getSchema_fragment_spec [("default", [(⟨"http://ex/s", none⟩,
        SNode.schema [("items", SNode.schema []), ("maxItems", SNode.leaf (.num 3 true))])])]
      [] (fun _ => none) (fun _ => SNode.leaf .null)
      "http://ex/s" "/maxItems" "default" ["maxItems"] rfl (by decide)).1
      (SNode.schema [("items", SNode.schema []), ("maxItems", SNode.leaf (.num 3 true))])
      rfl rfl (SNode.leaf (.num 3 true)) rfl
  · exact (getSchema_fragment_spec [("default", [(⟨"http://ex/s", none⟩,
        SNode.schema [("items", SNode.schema []), ("maxItems", SNode.leaf (.num 3 true))])])]
      [] (fun _ => none) (fun _ => SNode.leaf .null)
      "http://ex/s" "/nope" "default" ["nope"] rfl (by decide)).2.1
      (SNode.schema [("items", SNode.schema []), ("maxItems", SNode.leaf (.num 3 true))])
      rfl rfl rfl
  · exact (getSchema_fragment_spec [("default", [(⟨"http://ex/s", none⟩,
        SNode.schema [("items", SNode.schema []), ("maxItems", SNode.leaf (.num 3 true))])])]
      [] (fun _ => none) (fun _ => SNode.leaf .null)
      "http://ex/s" "anc" "default" [] rfl (by decide)).2.2.1
      (SNode.schema [("items", SNode.schema []), ("maxItems", SNode.leaf (.num 3 true))])
      rfl rfl
  · exact (getSchema_fragment_spec [] [("http://ex/", "/d")]
      (fun p => if p = "/d/s" then some .null else none)
      (fun _ => SNode.schema [("items", SNode.schema [])])
      "http://ex/s" "/items" "default" ["items"] rfl (by decide)).2.2.2.1
      .null rfl rfl rfl (SNode.schema []) rfl
  · exact (getSchema_fragment_spec [("x", [])]
      [] (fun _ => none) (fun _ => SNode.leaf .null)
      "http://ex/s" "/items" "default" ["items"] rfl (by decide)).2.2.2.2
      [("anc", SNode.schema [])] "anc" (SNode.schema []) []
      (List.mem_singleton.mpr rfl) (by simp)

/-! ## uniquify lemmas -/

theorem uniquifyGo_length_le (xs : List JVal) :
    ∀ acc, (uniquifyGo acc xs).length ≤ acc.length + xs.length := by
  induction xs with
  | nil => intro acc; simp [uniquifyGo]
  | cons x xs ih =>
    intro acc
    unfold uniquifyGo
    by_cases h : acc.any (fun el => jsonEq el x) = true
    · rw [if_pos h]
      have := ih acc
      simp only [List.length_cons]
      omega
    · rw [if_neg h]
      have := ih (acc ++ [x])
      simp only [List.length_append, List.length_cons, List.length_nil] at this ⊢
      omega

theorem uniquifyGo_no_dup (xs : List JVal) :
    ∀ acc, xs.Pairwise (fun a b => jsonEq a b = false) →
      (∀ x ∈ xs, ∀ a ∈ acc, jsonEq a x = false) →
      uniquifyGo acc xs = acc ++ xs := by
  induction xs with
  | nil => intro acc _ _; simp [uniquifyGo]
  | cons x xs ih =>
    intro acc hpw hacc
    unfold uniquifyGo
    have hnone : acc.any (fun el => jsonEq el x) = false := by
      rw [List.any_eq_false]
      intro a ha
      simp [hacc x (List.mem_cons_self x xs) a ha]
    rw [if_neg (by simp [hnone])]
    rw [ih (acc ++ [x]) hpw.tail ?_]
    · simp
    · intro y hy a ha
      rcases List.mem_append.mp ha with h1 | h1
      · exact hacc y (List.mem_cons_of_mem x hy) a h1
      · simp only [List.mem_singleton] at h1
        subst h1
        exact (List.pairwise_cons.mp hpw).1 y hy

theorem uniquifyGo_drop_mem (xs : List JVal) :
    ∀ acc, (∃ y ∈ xs, ∃ a ∈ acc, jsonEq a y = true) →
      (uniquifyGo acc xs).length < acc.length + xs.length := by
  induction xs with
  | nil =>
    rintro acc ⟨y, hy, _⟩
    exact absurd hy (List.not_mem_nil y)
  | cons x xs ih =>
    rintro acc ⟨y, hy, a, ha, heq⟩
    unfold uniquifyGo
    by_cases h : acc.any (fun el => jsonEq el x) = true
    · rw [if_pos h]
      have := uniquifyGo_length_le xs acc
      simp only [List.length_cons]
      omega
    · rw [if_neg h]
      rcases List.mem_cons.mp hy with rfl | hy2
      · exact absurd (List.any_eq_true.mpr ⟨a, ha, heq⟩) h
      · have := ih (acc ++ [x]) ⟨y, hy2, a, List.mem_append_left _ ha, heq⟩
        simp only [List.length_append, List.length_cons, List.length_nil] at this ⊢
        omega

theorem uniquifyGo_drop (xs : List JVal) :
    ∀ acc, ¬ xs.Pairwise (fun a b => jsonEq a b = false) →
      (uniquifyGo acc xs).length < acc.length + xs.length := by
  induction xs with
  | nil => intro acc h; exact absurd List.Pairwise.nil h
  | cons x xs ih =>
    intro acc h
    unfold uniquifyGo
    by_cases hm : acc.any (fun el => jsonEq el x) = true
    · rw [if_pos hm]
      have := uniquifyGo_length_le xs acc
      simp only [List.length_cons]
      omega
    · rw [if_neg hm]
      by_cases hpw : xs.Pairwise (fun a b => jsonEq a b = false)
      · have hhead : ¬ ∀ y ∈ xs, jsonEq x y = false := by
          intro hall
          exact h (List.pairwise_cons.mpr ⟨hall, hpw⟩)
        push_neg at hhead
        obtain ⟨y, hy, hne⟩ := hhead
        have heq : jsonEq x y = true := by
          rcases Bool.eq_false_or_eq_true (jsonEq x y) with h1 | h1
          · exact h1
          · exact absurd h1 hne
        have := uniquifyGo_drop_mem xs (acc ++ [x])
          ⟨y, hy, x, List.mem_append_right _ (List.mem_singleton.mpr rfl), heq⟩
        simp only [List.length_append, List.length_cons, List.length_nil] at this ⊢
        omega
      · have := ih (acc ++ [x]) hpw
        simp only [List.length_append, List.length_cons, List.length_nil] at this ⊢
        omega

theorem uniquify_length_lt_iff (items : List JVal) :
    (uniquify items).length < items.length
      ↔ ¬ items.Pairwise (fun a b => jsonEq a b = false) := by
  constructor
  · intro h hpw
    rw [uniquify, uniquifyGo_no_dup items [] hpw (by simp)] at h
    simp at h
  · intro h
    have := uniquifyGo_drop items [] h
    simpa using this

/-- C8: uniqueItems false is a no-op; uniqueItems true fails exactly when
two distinct positions of the array hold deeply-equal elements, deep
equality being numeric across integer and decimal representations, so the
array holding 1 and 1.0 is rejected. -/
theorem uniqueItems_spec (items : List JVal) :
    (∀ scope, UniqueItemsKeyword.evaluate false items scope = scope)
    ∧ ((UniqueItemsKeyword.evaluate true items emptyScope).valid = false ↔
        ∃ i j, ∃ (hi : i < items.length) (hj : j < items.length), i < j ∧
          jsonEq items[i] items[j] = true)
    ∧ (UniqueItemsKeyword.evaluate true [.num 1 true, .num 1 false] emptyScope).valid
        = false := by
  refine ⟨fun scope => rfl, ?_, by decide⟩
  have hlt : (UniqueItemsKeyword.evaluate true items emptyScope).valid = false
      ↔ (uniquify items).length < items.length := by
    unfold UniqueItemsKeyword.evaluate
    by_cases h : items.length > (uniquify items).length
    · rw [if_pos h]
      exact iff_of_true (by simp [Scope.valid, Scope.fail, emptyScope]) h
    · rw [if_neg h]
      exact iff_of_false (by simp [Scope.valid, emptyScope]) h
  rw [hlt, uniquify_length_lt_iff, List.pairwise_iff_getElem]
  push_neg
  constructor
  · rintro ⟨i, j, hi, hj, hij, hne⟩
    refine ⟨i, j, hi, hj, hij, ?_⟩
    rcases Bool.eq_false_or_eq_true (jsonEq items[i] items[j]) with h1 | h1
    · exact h1
    · exact absurd h1 hne
  · rintro ⟨i, j, hi, hj, hij, heq⟩
    refine ⟨i, j, hi, hj, hij, ?_⟩
    rw [heq]
    simp
